import Mathlib

/-!
Verification of the BrainfuckLLVM frontend (src/codegen.cpp).

The development shallowly embeds the two components of the program:

* the parser (`Ast::Node::try_parse`, `Ast::ProgramNode::try_parse`,
  `Ast::ConditionalGroupNode::try_parse`, lines 379-430), and
* the code generator (`codegen` methods of the AST node classes,
  lines 99-377), together with an executable small-step semantics of
  the emitted code.

Machine integers are modelled as `Nat`/`Int` with explicit reductions:
cells are i8 values kept as `Nat` reduced mod 256, the head position is
an i64 kept as `Int` wrapped by `wrap64`.
-/

/- ## The AST

`Ast::Node` and its subclasses (src/codegen.cpp lines 99-377).  One
constructor per leaf class plus `condGroup` for
`Ast::ConditionalGroupNode` (a `[...]` group).  `Ast::ProgramNode` and
`Ast::ConditionalGroupNode` both hold `std::vector<Node *> children`,
modelled as `List Node`; a whole program is just that child list. -/
inductive Node where
  | increment                        -- IncrementNode, `+`
  | decrement                        -- DecrementNode, `-`
  | moveLeft                         -- MoveLeftNode, `<`
  | moveRight                        -- MoveRightNode, `>`
  | putChar                          -- PutCharNode, `.`
  | getChar                          -- GetCharNode, `,`
  | condGroup (children : List Node) -- ConditionalGroupNode, `[ ... ]`

/- ## The parser

`Ast::Node::try_parse` (lines 379-408) reads one character at a time;
`Ast::ProgramNode::try_parse` (410-419) and
`Ast::ConditionalGroupNode::try_parse` (421-430) both run the identical
loop `while ((node = Ast::Node::try_parse(in))) children.push_back(node)`.
We embed that loop as one function from the remaining character stream to
the collected children plus the unread remainder of the stream:

* a leaf character emits its node and the loop continues (switch cases
  `+ - < > . ,`);
* `[` recursively collects the children of the nested scope
  (`ConditionalGroupNode::try_parse`), wraps them in `condGroup`, and the
  outer loop continues behind the group;
* `]` makes `try_parse` return NULL, ending the enclosing loop and
  consuming the `]` (case `']': return NULL`);
* any other character is skipped (the `default:` case);
* end of stream makes `try_parse` return NULL, ending every loop
  (`if (!(in >> c)) return NULL`).

The C++ recursion terminates because every step consumes input; the
embedding makes this explicit with a fuel argument (first argument),
with `parseSeq` below supplying sufficient fuel.  Fuel exhaustion is
unreachable for the fuel used there (`parseSeqF_irrel`). -/
def parseSeqF : Nat → List Char → List Node × List Char
  | 0, cs => ([], cs)
  | _ + 1, [] => ([], [])
  | fuel + 1, c :: rest =>
    match c with
    | '+' => (Node.increment :: (parseSeqF fuel rest).1, (parseSeqF fuel rest).2)
    | '-' => (Node.decrement :: (parseSeqF fuel rest).1, (parseSeqF fuel rest).2)
    | '<' => (Node.moveLeft :: (parseSeqF fuel rest).1, (parseSeqF fuel rest).2)
    | '>' => (Node.moveRight :: (parseSeqF fuel rest).1, (parseSeqF fuel rest).2)
    | '.' => (Node.putChar :: (parseSeqF fuel rest).1, (parseSeqF fuel rest).2)
    | ',' => (Node.getChar :: (parseSeqF fuel rest).1, (parseSeqF fuel rest).2)
    | '[' =>
        (Node.condGroup (parseSeqF fuel rest).1 :: (parseSeqF fuel (parseSeqF fuel rest).2).1,
         (parseSeqF fuel (parseSeqF fuel rest).2).2)
    | ']' => ([], rest)
    | _ => parseSeqF fuel rest

/-- The canonical parse of one scope: the collected children and the part
of the stream behind the scope's terminating `]` (or `[]` at end of
stream).  The input's length is always enough fuel. -/
def parseSeq (cs : List Char) : List Node × List Char :=
  parseSeqF cs.length cs

/-- Embeds `Ast::ProgramNode::try_parse` (lines 410-419): collect top-level
children until `Ast::Node::try_parse` returns NULL; the rest of the
stream (behind a stray top-level `]`) is never read. -/
def parseProgram (cs : List Char) : List Node :=
  (parseSeq cs).1

/- ## The emitted code

The code generator (lines 274-376) targets LLVM IR through a builder
holding a list of basic blocks and a current insertion point.  Each
node's `codegen` emits a short fixed sequence of IR instructions; we
model each such sequence as one `Op`, documented with the exact IR it
stands for. -/
inductive Op where
  /-- From `ProgramNode::codegen` lines 289-297: `alloca i64` named
  "position" (the write head, a signed 64-bit integer). -/
  | allocaPosition
  /-- lines 295-296: `store i64 0, ptr %position`. -/
  | storePosInit
  /-- lines 300-305: `alloca [size x i8]` named "tape". -/
  | allocaTape (size : Nat)
  /-- lines 307-308: `store [TAPE_SIZE x i8] zeroinitializer, ptr %tape`. -/
  | storeTapeZero
  /-- From `IncrementNode::codegen` lines 116-131: load the i8 cell at the
  current position, `add i8 _, 1`, store back. -/
  | cellAdd
  /-- From `DecrementNode::codegen` lines 140-155: load the i8 cell at the
  current position, `sub i8 _, 1`, store back. -/
  | cellSub
  /-- From `MoveLeftNode::codegen` lines 164-172: load i64 position,
  `sub i64 _, 1`, store back.  No bounds check. -/
  | posSub
  /-- From `MoveRightNode::codegen` lines 181-189: load i64 position,
  `add i64 _, 1`, store back.  No bounds check. -/
  | posAdd
  /-- From `PutCharNode::codegen` lines 198-217: load the cell at the current
  position, `call i32 @putchar(i8 _)` with it. -/
  | callPutchar
  /-- From `GetCharNode::codegen` lines 226-250: `call i32 @getchar()`,
  truncate the i32 result to i8 (`CreateIntCast(..., i8, true)` keeps
  the low byte), store it into the cell at the current position. -/
  | callGetchar

/-- Block terminators.  `condBrNZ t f` is the pair
`icmp ne i8 (load tape[position]), 0` + `br i1 _, %t, %f` emitted by
`ConditionalGroupNode::codegen` (lines 346-354 and 365-371); `retVoid`
is `ret void` (line 316).  `unterminated` marks a block still being
built. -/
inductive Terminator where
  | condBrNZ (t f : Nat)
  | retVoid
  | unterminated

/-- One LLVM basic block: its instructions and its terminator. -/
structure BB where
  ops : List Op
  term : Terminator

/-- Replace the element at one index of a list, leaving every other
element (and the length) unchanged. -/
def updateAt (f : α → α) : Nat → List α → List α
  | _, [] => []
  | 0, a :: as => f a :: as
  | i + 1, a :: as => a :: updateAt f i as

/-- The `IRBuilder` state: the basic blocks of the function under
construction (in creation order, so a block's index identifies it) and
the index of the block the builder currently inserts into. -/
structure Builder where
  blocks : List BB
  insertPt : Nat

/-- Append one instruction to the insertion block (a `Builder->Create*`
call while positioned in that block). -/
def Builder.emit (b : Builder) (op : Op) : Builder :=
  { b with blocks := updateAt (fun bb => { bb with ops := bb.ops ++ [op] }) b.insertPt b.blocks }

/-- Terminate the insertion block (`Builder->CreateCondBr` /
`Builder->CreateRet`). -/
def Builder.setTerm (b : Builder) (t : Terminator) : Builder :=
  { b with blocks := updateAt (fun bb => { bb with term := t }) b.insertPt b.blocks }

/-- Models `BasicBlock::Create`: append a fresh empty block; its index is the
old `blocks.length`. -/
def Builder.newBlock (b : Builder) : Builder :=
  { b with blocks := b.blocks ++ [⟨[], Terminator.unterminated⟩] }

/-- Models `Builder->SetInsertPoint`. -/
def Builder.setInsert (b : Builder) (i : Nat) : Builder :=
  { b with insertPt := i }

/-- The test-and-branch emitted twice by `ConditionalGroupNode::codegen`:
nonzero cell goes to the "group content" block (index
`b.blocks.length`), zero cell to the "merge" block (index
`b.blocks.length + 1`), both created by this group. -/
def loopBr (b : Builder) : Terminator :=
  Terminator.condBrNZ b.blocks.length (b.blocks.length + 1)

/-- The entry wiring of `ConditionalGroupNode::codegen` (lines 340-357):
create the "group content" and "merge" blocks, terminate the current
block with the entry test, and move the insertion point to the start of
the group content. -/
def loopPre (b : Builder) : Builder :=
  ((b.newBlock.newBlock).setTerm (loopBr b)).setInsert b.blocks.length

/- ### Emitting a child list

`codegen` of a child list (the loop `for (auto child : children)
child->codegen()` of `ProgramNode::codegen` line 312 and
`ConditionalGroupNode::codegen` line 359).  Leaf nodes append their
instruction to the insertion block.  A `condGroup` (lines 336-375) runs
`loopPre`, emits its children into the group content, re-emits the same
test branching back to the *start* of the group content or on to merge
(lines 365-371), and leaves the insertion point at the merge block
(line 374). -/
def codegenList : List Node → Builder → Builder
  | [], b => b
  | Node.increment :: cs, b => codegenList cs (b.emit Op.cellAdd)
  | Node.decrement :: cs, b => codegenList cs (b.emit Op.cellSub)
  | Node.moveLeft :: cs, b => codegenList cs (b.emit Op.posSub)
  | Node.moveRight :: cs, b => codegenList cs (b.emit Op.posAdd)
  | Node.putChar :: cs, b => codegenList cs (b.emit Op.callPutchar)
  | Node.getChar :: cs, b => codegenList cs (b.emit Op.callGetchar)
  | Node.condGroup children :: cs, b =>
      codegenList cs
        (((codegenList children (loopPre b)).setTerm (loopBr b)).setInsert
          (b.blocks.length + 1))

/-- Emission for one node (its `codegen` method). -/
def Node.codegen (c : Node) (b : Builder) : Builder :=
  codegenList [c] b

/-- Models `const unsigned int TAPE_SIZE = 0x4000;` (line 32). -/
def TAPE_SIZE : Nat := 0x4000

/-- The function produced for the whole program: entry routine metadata
plus its blocks. -/
structure Func where
  name : String
  numParams : Nat
  returnsVoid : Bool
  blocks : List BB

/-- The builder state after the prologue of `ProgramNode::codegen`
(lines 285-309): one entry block holding the four allocation /
initialization instructions, insertion point on it. -/
def setupBuilder : Builder :=
  (((Builder.emit ⟨[⟨[], Terminator.unterminated⟩], 0⟩ Op.allocaPosition).emit
      Op.storePosInit).emit (Op.allocaTape TAPE_SIZE)).emit Op.storeTapeZero

/-- Embeds `ProgramNode::codegen` (lines 274-318): create `void main()` with an
entry block, allocate `position` (i64, initialized to 0) and `tape`
(`[TAPE_SIZE x i8]`, zeroinitializer), emit every child in order, then
`ret void`. -/
def programCodegen (children : List Node) : Func :=
  { name := "main", numParams := 0, returnsVoid := true,
    blocks := ((codegenList children setupBuilder).setTerm Terminator.retVoid).blocks }

/- ## Executing the emitted code

The semantics the emitted IR has when the produced module is compiled
and run (spec section 3, "runtime state model").  Cells are unsigned
bytes (`Nat` values reduced mod 256), the position is a signed 64-bit
integer (`Int` wrapped by `wrap64`), `getchar` consumes the input
stream (returning -1 at end of input, as C's `getchar` does), `putchar`
appends a byte to the output. -/

/-- Two's-complement wraparound of a signed 64-bit quantity. -/
def wrap64 (x : Int) : Int :=
  (x + 2 ^ 63) % 2 ^ 64 - 2 ^ 63

/-- Machine state of the running translated program.  The tape is kept
as a total function so that accesses outside the allocated
`[0, TAPE_SIZE)` range (which the generated code never guards against)
still denote; `inBounds` below distinguishes the allocated range. -/
structure Exec where
  tape : Int → Nat
  pos : Int
  inp : List Int
  out : List Nat

/-- Pointwise tape update. -/
def updTape (t : Int → Nat) (i : Int) (v : Nat) : Int → Nat :=
  fun j => if j = i then v else t j

/-- Indices inside the allocated `[TAPE_SIZE x i8]` array.  Cell
accesses at other indices are out-of-bounds accesses of the generated
code. -/
def inBounds (p : Int) : Prop :=
  0 ≤ p ∧ p < (TAPE_SIZE : Int)

/-- Effect of one emitted instruction sequence on the machine state.
The `alloca`s reserve storage (no state change here); the two `store`s
of the prologue realize the documented initial values; cell arithmetic
is i8 arithmetic (mod 256: `add i8 _, 1` is `+1 mod 256`,
`sub i8 _, 1` is `+255 mod 256`); position arithmetic is i64
arithmetic; `getchar` yields the next input value, or -1 when the
input is exhausted, and the store keeps its low byte
(`(c % 256).toNat`, the unsigned value of `trunc i32 _ to i8`). -/
def execOp : Op → Exec → Exec
  | Op.allocaPosition, e => e
  | Op.storePosInit, e => { e with pos := 0 }
  | Op.allocaTape _, e => e
  | Op.storeTapeZero, e => { e with tape := fun _ => 0 }
  | Op.cellAdd, e => { e with tape := updTape e.tape e.pos ((e.tape e.pos + 1) % 256) }
  | Op.cellSub, e => { e with tape := updTape e.tape e.pos ((e.tape e.pos + 255) % 256) }
  | Op.posSub, e => { e with pos := wrap64 (e.pos - 1) }
  | Op.posAdd, e => { e with pos := wrap64 (e.pos + 1) }
  | Op.callPutchar, e => { e with out := e.out ++ [e.tape e.pos] }
  | Op.callGetchar, e =>
      { e with
        inp := e.inp.tail,
        tape := updTape e.tape e.pos
          (((match e.inp with
             | [] => (-1 : Int)
             | x :: _ => x) % 256).toNat) }

/-- Small-step execution of a function's control-flow graph from block
`bi`, instruction `oi`.  `some e` means the program reached `ret void`
with final state `e`; `none` means the fuel ran out (or an ill-formed
function was reached).  A `condBrNZ` terminator tests the cell at the
current position against zero and transfers control accordingly. -/
def runFrom (f : Func) : Nat → Nat → Nat → Exec → Option Exec
  | 0, _, _, _ => none
  | fuel + 1, bi, oi, e =>
    match (f.blocks.get? bi).bind (fun bb => some (bb.ops.get? oi, bb.term)) with
    | none => none
    | some (some op, _) => runFrom f fuel bi (oi + 1) (execOp op e)
    | some (none, Terminator.condBrNZ bt bf) =>
        if e.tape e.pos ≠ 0 then runFrom f fuel bt 0 e else runFrom f fuel bf 0 e
    | some (none, Terminator.retVoid) => some e
    | some (none, Terminator.unterminated) => none

/-- Initial machine state on entry of `main`, before the prologue runs:
input stream pending, nothing written. -/
def initExec (inp : List Int) : Exec :=
  ⟨fun _ => 0, 0, inp, []⟩

/-- Run the translation of a program with the given input stream and
step budget. -/
def runProgram (children : List Node) (inp : List Int) (fuel : Nat) : Option Exec :=
  runFrom (programCodegen children) fuel 0 0 (initExec inp)


/- ## The debug printer

`debug_print` of each node class: each leaf prints its original
character (lines 112-114, 136-138, 160-162, 177-179, 194-196, 222-224),
`ConditionalGroupNode::debug_print` prints its children between `[` and
`]` (lines 328-334), and `ProgramNode::debug_print` prints its children
with no delimiters (lines 268-272). -/
mutual

def debugPrint : Node → List Char
  | Node.increment => ['+']
  | Node.decrement => ['-']
  | Node.moveLeft => ['<']
  | Node.moveRight => ['>']
  | Node.putChar => ['.']
  | Node.getChar => [',']
  | Node.condGroup children => '[' :: (debugPrintList children ++ [']'])

def debugPrintList : List Node → List Char
  | [] => []
  | n :: ns => debugPrint n ++ debugPrintList ns

end

/-- The eight characters recognized by the switch in
`Ast::Node::try_parse`. -/
def isCmd (c : Char) : Bool :=
  c = '+' || c = '-' || c = '<' || c = '>' || c = '.' || c = ',' || c = '[' || c = ']'

/-- Relation `FillerInsertion s t`: `t` is obtained from `s` by inserting, at
arbitrary positions, characters outside the `+-<>.,[]` command set. -/
inductive FillerInsertion : List Char → List Char → Prop where
  | nil : FillerInsertion [] []
  | keep (c : Char) (s t : List Char) :
      FillerInsertion s t → FillerInsertion (c :: s) (c :: t)
  | insert (c : Char) (s t : List Char) :
      isCmd c = false → FillerInsertion s t → FillerInsertion s (c :: t)

/- ## Builder invariants

`BuilderEvolves b b'` records what any amount of child emission does to
a builder: blocks are only added, blocks other than the insertion block
are untouched, the insertion block's instructions are only appended to,
and the insertion point either stays put or moves to a newly created
block. -/
def BuilderEvolves (b b' : Builder) : Prop :=
  b.blocks.length ≤ b'.blocks.length
  ∧ (∀ j, j < b.blocks.length → j ≠ b.insertPt → b'.blocks.get? j = b.blocks.get? j)
  ∧ (∀ bb, b.blocks.get? b.insertPt = some bb →
      ∃ suf t, b'.blocks.get? b.insertPt = some ⟨bb.ops ++ suf, t⟩)
  ∧ (b'.insertPt = b.insertPt ∨ b.blocks.length ≤ b'.insertPt)
  ∧ (b.insertPt < b.blocks.length → b'.insertPt < b'.blocks.length)

/-- The tree the spec requires for `++>+++++[<+>-]<.`. -/
def progSeven : List Node :=
  [Node.increment, Node.increment, Node.moveRight, Node.increment, Node.increment,
   Node.increment, Node.increment, Node.increment,
   Node.condGroup [Node.moveLeft, Node.increment, Node.moveRight, Node.decrement],
   Node.moveLeft, Node.putChar]

/-- Append a batch of instructions to the insertion block. -/
def appendOps (b : Builder) (ops : List Op) : Builder :=
  { b with blocks := updateAt (fun bb => { bb with ops := bb.ops ++ ops }) b.insertPt b.blocks }

/-- The three-region shape C1 requires of every lowered `Loop`:
writing `n` for the number of blocks existing at entry (the group
content block gets index `n`, the merge block index `n + 1`),

* the lowering is exactly: entry wiring, child emission by the same
  rule, the trailing nonzero test into (content, merge), insertion
  point moved to merge;
* the previously current block keeps its instructions and is terminated
  by the entry test: nonzero to the content block, zero to merge;
* the content block the body starts in is created empty;
* the merge block has no instructions of its own;
* the merge block is the insertion point for the code after the loop;
* the trailing test is emitted into a body-region block (the content
  block itself or a block created during body emission), and its
  back-edge target `n` is not the entry-test block. -/
def condGroupShape (children : List Node) (s : Builder) : Prop :=
  Node.codegen (Node.condGroup children) s
      = ((codegenList children (loopPre s)).setTerm (loopBr s)).setInsert
          (s.blocks.length + 1)
  ∧ (∀ bb, s.blocks.get? s.insertPt = some bb →
      (Node.codegen (Node.condGroup children) s).blocks.get? s.insertPt
        = some ⟨bb.ops, Terminator.condBrNZ s.blocks.length (s.blocks.length + 1)⟩)
  ∧ (loopPre s).blocks.get? s.blocks.length = some ⟨[], Terminator.unterminated⟩
  ∧ (Node.codegen (Node.condGroup children) s).blocks.get? (s.blocks.length + 1)
      = some ⟨[], Terminator.unterminated⟩
  ∧ (Node.codegen (Node.condGroup children) s).insertPt = s.blocks.length + 1
  ∧ ((codegenList children (loopPre s)).insertPt = s.blocks.length
      ∨ s.blocks.length + 2 ≤ (codegenList children (loopPre s)).insertPt)
  ∧ s.insertPt ≠ s.blocks.length

/- ## List helper lemmas -/

theorem updateAt_length (f : α → α) (i : Nat) (l : List α) :
    (updateAt f i l).length = l.length := by
  induction l generalizing i with
  | nil => cases i <;> rfl
  | cons a as ih =>
    cases i with
    | zero => rfl
    | succ i => simp [updateAt, ih]

theorem updateAt_get?_ne (f : α → α) (i j : Nat) (l : List α) (h : j ≠ i) :
    (updateAt f i l).get? j = l.get? j := by
  induction l generalizing i j with
  | nil => cases i <;> rfl
  | cons a as ih =>
    cases i with
    | zero =>
      cases j with
      | zero => exact absurd rfl h
      | succ j => rfl
    | succ i =>
      cases j with
      | zero => rfl
      | succ j => simpa [updateAt] using ih i j (fun hh => h (by simp [hh]))

theorem updateAt_get?_eq (f : α → α) (i : Nat) (l : List α) :
    (updateAt f i l).get? i = (l.get? i).map f := by
  induction l generalizing i with
  | nil => cases i <;> rfl
  | cons a as ih =>
    cases i with
    | zero => rfl
    | succ i => simpa [updateAt] using ih i

theorem get?_append_lt (l l' : List α) (j : Nat) (h : j < l.length) :
    (l ++ l').get? j = l.get? j := by
  induction l generalizing j with
  | nil => exact absurd h (by simp)
  | cons a as ih =>
    cases j with
    | zero => rfl
    | succ j => simpa using ih j (by simpa using h)

theorem get?_append_len (l : List α) (x : α) :
    (l ++ [x]).get? l.length = some x := by
  induction l with
  | nil => rfl
  | cons a as ih => simp [ih]

theorem get?_some_lt (l : List α) (j : Nat) (a : α) (h : l.get? j = some a) :
    j < l.length := by
  induction l generalizing j with
  | nil => simp at h
  | cons b bs ih =>
    cases j with
    | zero => simp
    | succ j =>
      have := ih j (by simpa using h)
      simp only [List.length_cons]
      omega

theorem get?_lt_some (l : List α) (j : Nat) (h : j < l.length) :
    ∃ a, l.get? j = some a := by
  induction l generalizing j with
  | nil => simp at h
  | cons b bs ih =>
    cases j with
    | zero => exact ⟨b, rfl⟩
    | succ j => exact ih j (by simpa using h)

/- ## Parser lemmas

Unfolding lemmas for each character class of `Ast::Node::try_parse`,
then: a parse never returns more stream than it was given, and any fuel
of at least the stream's length gives the same answer as `parseSeq`. -/

theorem parseSeqF_plus (f : Nat) (rest : List Char) :
    parseSeqF (f + 1) ('+' :: rest)
      = (Node.increment :: (parseSeqF f rest).1, (parseSeqF f rest).2) := rfl

theorem parseSeqF_minus (f : Nat) (rest : List Char) :
    parseSeqF (f + 1) ('-' :: rest)
      = (Node.decrement :: (parseSeqF f rest).1, (parseSeqF f rest).2) := rfl

theorem parseSeqF_lt (f : Nat) (rest : List Char) :
    parseSeqF (f + 1) ('<' :: rest)
      = (Node.moveLeft :: (parseSeqF f rest).1, (parseSeqF f rest).2) := rfl

theorem parseSeqF_gt (f : Nat) (rest : List Char) :
    parseSeqF (f + 1) ('>' :: rest)
      = (Node.moveRight :: (parseSeqF f rest).1, (parseSeqF f rest).2) := rfl

theorem parseSeqF_dot (f : Nat) (rest : List Char) :
    parseSeqF (f + 1) ('.' :: rest)
      = (Node.putChar :: (parseSeqF f rest).1, (parseSeqF f rest).2) := rfl

theorem parseSeqF_comma (f : Nat) (rest : List Char) :
    parseSeqF (f + 1) (',' :: rest)
      = (Node.getChar :: (parseSeqF f rest).1, (parseSeqF f rest).2) := rfl

theorem parseSeqF_open (f : Nat) (rest : List Char) :
    parseSeqF (f + 1) ('[' :: rest)
      = (Node.condGroup (parseSeqF f rest).1 :: (parseSeqF f (parseSeqF f rest).2).1,
         (parseSeqF f (parseSeqF f rest).2).2) := rfl

theorem parseSeqF_close (f : Nat) (rest : List Char) :
    parseSeqF (f + 1) (']' :: rest) = ([], rest) := rfl

/-- The `default:` case of the switch: every unrecognized character is
skipped. -/
theorem parseSeqF_other (f : Nat) (c : Char) (rest : List Char)
    (h1 : c ≠ '+') (h2 : c ≠ '-') (h3 : c ≠ '<') (h4 : c ≠ '>')
    (h5 : c ≠ '.') (h6 : c ≠ ',') (h7 : c ≠ '[') (h8 : c ≠ ']') :
    parseSeqF (f + 1) (c :: rest) = parseSeqF f rest := by
  simp only [parseSeqF]

/-- A parse only consumes input: the unread remainder is no longer than
the stream it was given. -/
theorem parseSeqF_rest_length : ∀ (f : Nat) (cs : List Char),
    (parseSeqF f cs).2.length ≤ cs.length := by
  intro f
  induction f with
  | zero => intro cs; simp [parseSeqF]
  | succ f ih =>
    intro cs
    cases cs with
    | nil => simp [parseSeqF]
    | cons c rest =>
      by_cases h1 : c = '+'
      · subst h1; rw [parseSeqF_plus]; exact Nat.le_succ_of_le (ih rest)
      by_cases h2 : c = '-'
      · subst h2; rw [parseSeqF_minus]; exact Nat.le_succ_of_le (ih rest)
      by_cases h3 : c = '<'
      · subst h3; rw [parseSeqF_lt]; exact Nat.le_succ_of_le (ih rest)
      by_cases h4 : c = '>'
      · subst h4; rw [parseSeqF_gt]; exact Nat.le_succ_of_le (ih rest)
      by_cases h5 : c = '.'
      · subst h5; rw [parseSeqF_dot]; exact Nat.le_succ_of_le (ih rest)
      by_cases h6 : c = ','
      · subst h6; rw [parseSeqF_comma]; exact Nat.le_succ_of_le (ih rest)
      by_cases h7 : c = '['
      · subst h7; rw [parseSeqF_open]
        exact Nat.le_succ_of_le (le_trans (ih (parseSeqF f rest).2) (ih rest))
      by_cases h8 : c = ']'
      · subst h8; rw [parseSeqF_close]; exact Nat.le_succ _
      · rw [parseSeqF_other f c rest h1 h2 h3 h4 h5 h6 h7 h8]
        exact Nat.le_succ_of_le (ih rest)

/-- Any two sufficient fuels agree: the fuel is an artifact of the
embedding, not of the program. -/
theorem parseSeqF_irrel : ∀ (f g : Nat) (cs : List Char),
    cs.length ≤ f → cs.length ≤ g → parseSeqF f cs = parseSeqF g cs := by
  intro f
  induction f with
  | zero =>
    intro g cs hf _
    have : cs = [] := List.eq_nil_of_length_eq_zero (Nat.le_zero.mp hf)
    subst this
    cases g <;> rfl
  | succ f ih =>
    intro g cs hf hg
    cases cs with
    | nil => cases g <;> rfl
    | cons c rest =>
      cases g with
      | zero => simp at hg
      | succ g =>
        have hrf : rest.length ≤ f := by
          simpa [Nat.succ_le_succ_iff] using hf
        have hrg : rest.length ≤ g := by
          simpa [Nat.succ_le_succ_iff] using hg
        by_cases h1 : c = '+'
        · subst h1; rw [parseSeqF_plus, parseSeqF_plus, ih g rest hrf hrg]
        by_cases h2 : c = '-'
        · subst h2; rw [parseSeqF_minus, parseSeqF_minus, ih g rest hrf hrg]
        by_cases h3 : c = '<'
        · subst h3; rw [parseSeqF_lt, parseSeqF_lt, ih g rest hrf hrg]
        by_cases h4 : c = '>'
        · subst h4; rw [parseSeqF_gt, parseSeqF_gt, ih g rest hrf hrg]
        by_cases h5 : c = '.'
        · subst h5; rw [parseSeqF_dot, parseSeqF_dot, ih g rest hrf hrg]
        by_cases h6 : c = ','
        · subst h6; rw [parseSeqF_comma, parseSeqF_comma, ih g rest hrf hrg]
        by_cases h7 : c = '['
        · subst h7
          rw [parseSeqF_open, parseSeqF_open, ih g rest hrf hrg]
          have hr1 : (parseSeqF g rest).2.length ≤ f :=
            le_trans (parseSeqF_rest_length g rest) hrf
          have hr2 : (parseSeqF g rest).2.length ≤ g :=
            le_trans (parseSeqF_rest_length g rest) hrg
          rw [ih g (parseSeqF g rest).2 hr1 hr2]
        by_cases h8 : c = ']'
        · subst h8; rw [parseSeqF_close, parseSeqF_close]
        · rw [parseSeqF_other f c rest h1 h2 h3 h4 h5 h6 h7 h8,
            parseSeqF_other g c rest h1 h2 h3 h4 h5 h6 h7 h8, ih g rest hrf hrg]

/-- Step lemma used to move between a raw fuel and the canonical
`parseSeq`. -/
theorem parseSeqF_eq_parseSeq (f : Nat) (cs : List Char) (h : cs.length ≤ f) :
    parseSeqF f cs = parseSeq cs :=
  parseSeqF_irrel f cs.length cs h (le_refl _)

theorem parseSeq_nil : parseSeq [] = ([], []) := rfl

theorem parseSeq_plus (cs : List Char) :
    parseSeq ('+' :: cs) = (Node.increment :: (parseSeq cs).1, (parseSeq cs).2) :=
  parseSeqF_plus cs.length cs

theorem parseSeq_minus (cs : List Char) :
    parseSeq ('-' :: cs) = (Node.decrement :: (parseSeq cs).1, (parseSeq cs).2) :=
  parseSeqF_minus cs.length cs

theorem parseSeq_lt (cs : List Char) :
    parseSeq ('<' :: cs) = (Node.moveLeft :: (parseSeq cs).1, (parseSeq cs).2) :=
  parseSeqF_lt cs.length cs

theorem parseSeq_gt (cs : List Char) :
    parseSeq ('>' :: cs) = (Node.moveRight :: (parseSeq cs).1, (parseSeq cs).2) :=
  parseSeqF_gt cs.length cs

theorem parseSeq_dot (cs : List Char) :
    parseSeq ('.' :: cs) = (Node.putChar :: (parseSeq cs).1, (parseSeq cs).2) :=
  parseSeqF_dot cs.length cs

theorem parseSeq_comma (cs : List Char) :
    parseSeq (',' :: cs) = (Node.getChar :: (parseSeq cs).1, (parseSeq cs).2) :=
  parseSeqF_comma cs.length cs

/-- Entering a `[`: parse the nested scope, wrap it in a `condGroup`,
continue behind it. -/
theorem parseSeq_open (cs : List Char) :
    parseSeq ('[' :: cs)
      = (Node.condGroup (parseSeq cs).1 :: (parseSeq (parseSeq cs).2).1,
         (parseSeq (parseSeq cs).2).2) := by
  have h := parseSeqF_open cs.length cs
  have h2 : parseSeqF cs.length (parseSeqF cs.length cs).2 = parseSeq (parseSeqF cs.length cs).2 :=
    parseSeqF_eq_parseSeq cs.length (parseSeqF cs.length cs).2 (parseSeqF_rest_length cs.length cs)
  calc parseSeq ('[' :: cs) = parseSeqF (cs.length + 1) ('[' :: cs) := rfl
    _ = _ := by rw [h, h2]; rfl

/-- A `]` ends the scope being parsed and is consumed. -/
theorem parseSeq_close (cs : List Char) :
    parseSeq (']' :: cs) = ([], cs) :=
  parseSeqF_close cs.length cs

/-- Unrecognized characters are skipped. -/
theorem parseSeq_other (c : Char) (cs : List Char)
    (h1 : c ≠ '+') (h2 : c ≠ '-') (h3 : c ≠ '<') (h4 : c ≠ '>')
    (h5 : c ≠ '.') (h6 : c ≠ ',') (h7 : c ≠ '[') (h8 : c ≠ ']') :
    parseSeq (c :: cs) = parseSeq cs :=
  parseSeqF_other cs.length c cs h1 h2 h3 h4 h5 h6 h7 h8

/- ### Round-trip: parsing a debug-print recovers the tree -/

mutual

/-- Parsing the printed form of one node, followed by anything, yields
that node followed by the parse of the remainder. -/
theorem parseSeq_print_node (n : Node) (rest : List Char) :
    parseSeq (debugPrint n ++ rest) = (n :: (parseSeq rest).1, (parseSeq rest).2) := by
  match n with
  | Node.increment => rw [debugPrint]; exact parseSeq_plus rest
  | Node.decrement => rw [debugPrint]; exact parseSeq_minus rest
  | Node.moveLeft => rw [debugPrint]; exact parseSeq_lt rest
  | Node.moveRight => rw [debugPrint]; exact parseSeq_gt rest
  | Node.putChar => rw [debugPrint]; exact parseSeq_dot rest
  | Node.getChar => rw [debugPrint]; exact parseSeq_comma rest
  | Node.condGroup children =>
    rw [debugPrint]
    have hassoc :
        (('[' :: (debugPrintList children ++ [']'])) ++ rest)
          = '[' :: (debugPrintList children ++ (']' :: rest)) := by
      simp
    rw [hassoc, parseSeq_open, parseSeq_print_list children (']' :: rest), parseSeq_close]
    simp

/-- Parsing the printed form of a node list, followed by anything,
yields those nodes followed by the parse of the remainder. -/
theorem parseSeq_print_list (ns : List Node) (rest : List Char) :
    parseSeq (debugPrintList ns ++ rest) = (ns ++ (parseSeq rest).1, (parseSeq rest).2) := by
  match ns with
  | [] => rw [debugPrintList]; simp
  | n :: tl =>
    rw [debugPrintList]
    have hassoc : ((debugPrint n ++ debugPrintList tl) ++ rest)
        = debugPrint n ++ (debugPrintList tl ++ rest) := by simp
    rw [hassoc, parseSeq_print_node n (debugPrintList tl ++ rest), parseSeq_print_list tl rest]
    simp

end

/- ## Comment transparency

Characters other than the eight commands are skipped by the `default:`
case; parsing therefore only depends on the subsequence of command
characters. -/

/-- Parsing only sees the command characters: the tree is the tree of
the command subsequence, and the unread remainder filters likewise. -/
theorem parseSeq_filter : ∀ (cs : List Char),
    (parseSeq (cs.filter isCmd)).1 = (parseSeq cs).1 ∧
    (parseSeq (cs.filter isCmd)).2 = (parseSeq cs).2.filter isCmd := by
  intro cs
  match cs with
  | [] => exact ⟨rfl, rfl⟩
  | c :: rest =>
    by_cases h1 : c = '+'
    · subst h1
      have := parseSeq_filter rest
      simp only [List.filter_cons, show isCmd '+' = true from rfl, if_true]
      rw [parseSeq_plus, parseSeq_plus]
      simp_all
    by_cases h2 : c = '-'
    · subst h2
      have := parseSeq_filter rest
      simp only [List.filter_cons, show isCmd '-' = true from rfl, if_true]
      rw [parseSeq_minus, parseSeq_minus]
      simp_all
    by_cases h3 : c = '<'
    · subst h3
      have := parseSeq_filter rest
      simp only [List.filter_cons, show isCmd '<' = true from rfl, if_true]
      rw [parseSeq_lt, parseSeq_lt]
      simp_all
    by_cases h4 : c = '>'
    · subst h4
      have := parseSeq_filter rest
      simp only [List.filter_cons, show isCmd '>' = true from rfl, if_true]
      rw [parseSeq_gt, parseSeq_gt]
      simp_all
    by_cases h5 : c = '.'
    · subst h5
      have := parseSeq_filter rest
      simp only [List.filter_cons, show isCmd '.' = true from rfl, if_true]
      rw [parseSeq_dot, parseSeq_dot]
      simp_all
    by_cases h6 : c = ','
    · subst h6
      have := parseSeq_filter rest
      simp only [List.filter_cons, show isCmd ',' = true from rfl, if_true]
      rw [parseSeq_comma, parseSeq_comma]
      simp_all
    by_cases h7 : c = '['
    · subst h7
      have hrest := parseSeq_filter rest
      have hnest := parseSeq_filter (parseSeq rest).2
      simp only [List.filter_cons, show isCmd '[' = true from rfl, if_true]
      rw [parseSeq_open, parseSeq_open, hrest.1, hrest.2]
      rw [hnest.1, hnest.2]
      exact ⟨rfl, rfl⟩
    by_cases h8 : c = ']'
    · subst h8
      simp only [List.filter_cons, show isCmd ']' = true from rfl, if_true]
      rw [parseSeq_close, parseSeq_close]
      exact ⟨rfl, rfl⟩
    · have hc : isCmd c = false := by
        simp [isCmd, h1, h2, h3, h4, h5, h6, h7, h8]
      have := parseSeq_filter rest
      simp only [List.filter_cons, hc, if_false]
      rw [parseSeq_other c rest h1 h2 h3 h4 h5 h6 h7 h8]
      exact this
termination_by cs => cs.length
decreasing_by
  all_goals simp only [List.length_cons]
  all_goals try omega
  all_goals
    (have h : (parseSeq rest).2.length ≤ rest.length := parseSeqF_rest_length rest.length rest
     omega)

/-- Inserting filler does not change the command subsequence. -/
theorem fillerInsertion_filter (s t : List Char) (h : FillerInsertion s t) :
    t.filter isCmd = s.filter isCmd := by
  induction h with
  | nil => rfl
  | keep c s t _ ih => simp [List.filter_cons, ih]
  | insert c s t hc _ ih => simp [List.filter_cons, hc, ih]

theorem evolves_refl (b : Builder) : BuilderEvolves b b := by
  refine ⟨le_refl _, fun j _ _ => rfl, fun bb h => ⟨[], bb.term, ?_⟩, Or.inl rfl, fun h => h⟩
  simpa using h

theorem evolves_trans {a b c : Builder}
    (h1 : BuilderEvolves a b) (h2 : BuilderEvolves b c) : BuilderEvolves a c := by
  obtain ⟨l1, u1, e1, p1, v1⟩ := h1
  obtain ⟨l2, u2, e2, p2, v2⟩ := h2
  refine ⟨le_trans l1 l2, ?_, ?_, ?_, fun h => v2 (v1 h)⟩
  · intro j hj hne
    have hjb : j ≠ b.insertPt := by
      rcases p1 with hp | hp
      · rw [hp]; exact hne
      · omega
    rw [u2 j (lt_of_lt_of_le hj l1) hjb, u1 j hj hne]
  · intro bb hbb
    have hlt : a.insertPt < a.blocks.length := get?_some_lt _ _ _ hbb
    obtain ⟨suf, t, hmid⟩ := e1 bb hbb
    rcases p1 with hp | hp
    · obtain ⟨suf2, t2, hfin⟩ := e2 ⟨bb.ops ++ suf, t⟩ (hp ▸ hmid)
      exact ⟨suf ++ suf2, t2, by rw [hp] at hfin; simpa using hfin⟩
    · have hne : a.insertPt ≠ b.insertPt := by omega
      rw [u2 a.insertPt (lt_of_lt_of_le hlt l1) hne]
      exact ⟨suf, t, hmid⟩
  · rcases p2 with hp | hp
    · rw [hp]; exact p1
    · exact Or.inr (le_trans l1 hp)

/-- Emitting an instruction evolves the builder. -/
theorem evolves_emit (b : Builder) (op : Op) : BuilderEvolves b (b.emit op) := by
  refine ⟨?_, ?_, ?_, Or.inl rfl, ?_⟩
  · simp [Builder.emit, updateAt_length]
  · intro j _ hne
    exact updateAt_get?_ne _ _ _ _ hne
  · intro bb hbb
    refine ⟨[op], bb.term, ?_⟩
    show (updateAt _ b.insertPt b.blocks).get? b.insertPt = _
    rw [updateAt_get?_eq, hbb]
    rfl
  · intro h
    simpa [Builder.emit, updateAt_length] using h

/-- Setting the terminator evolves the builder. -/
theorem evolves_setTerm (b : Builder) (t : Terminator) : BuilderEvolves b (b.setTerm t) := by
  refine ⟨?_, ?_, ?_, Or.inl rfl, ?_⟩
  · simp [Builder.setTerm, updateAt_length]
  · intro j _ hne
    exact updateAt_get?_ne _ _ _ _ hne
  · intro bb hbb
    refine ⟨[], t, ?_⟩
    show (updateAt _ b.insertPt b.blocks).get? b.insertPt = _
    rw [updateAt_get?_eq, hbb]
    simp
  · intro h
    simpa [Builder.setTerm, updateAt_length] using h

/- ### What the loop entry wiring does to the builder -/

theorem loopPre_len (b : Builder) :
    (loopPre b).blocks.length = b.blocks.length + 2 := by
  simp [loopPre, Builder.newBlock, Builder.setTerm, Builder.setInsert, updateAt_length]

theorem loopPre_insertPt (b : Builder) :
    (loopPre b).insertPt = b.blocks.length := rfl

theorem loopPre_get?_lt (b : Builder) (j : Nat)
    (hj : j < b.blocks.length) (hne : j ≠ b.insertPt) :
    (loopPre b).blocks.get? j = b.blocks.get? j := by
  show (updateAt _ b.insertPt ((b.blocks ++ [⟨[], Terminator.unterminated⟩])
      ++ [⟨[], Terminator.unterminated⟩])).get? j = _
  rw [updateAt_get?_ne _ _ _ _ hne,
    get?_append_lt _ _ j (by simpa using Nat.lt_succ_of_lt hj),
    get?_append_lt _ _ j hj]

/-- The entry test lands in the block that was current when the group's
`codegen` started: its instructions are kept, its terminator becomes the
nonzero test into content/merge. -/
theorem loopPre_get?_entry (b : Builder) (bb : BB)
    (h : b.blocks.get? b.insertPt = some bb) :
    (loopPre b).blocks.get? b.insertPt = some ⟨bb.ops, loopBr b⟩ := by
  have hlt : b.insertPt < b.blocks.length := get?_some_lt _ _ _ h
  show (updateAt _ b.insertPt ((b.blocks ++ [⟨[], Terminator.unterminated⟩])
      ++ [⟨[], Terminator.unterminated⟩])).get? b.insertPt = _
  rw [updateAt_get?_eq,
    get?_append_lt _ _ b.insertPt (by simpa using Nat.lt_succ_of_lt hlt),
    get?_append_lt _ _ b.insertPt hlt, h]
  rfl

/-- The freshly created merge block is empty and unterminated. -/
theorem loopPre_get?_merge (b : Builder) (h : b.insertPt < b.blocks.length) :
    (loopPre b).blocks.get? (b.blocks.length + 1)
      = some ⟨[], Terminator.unterminated⟩ := by
  show (updateAt _ b.insertPt ((b.blocks ++ [⟨[], Terminator.unterminated⟩])
      ++ [⟨[], Terminator.unterminated⟩])).get? (b.blocks.length + 1) = _
  rw [updateAt_get?_ne _ _ _ _ (by omega)]
  have hlen : (b.blocks ++ [(⟨[], Terminator.unterminated⟩ : BB)]).length
      = b.blocks.length + 1 := by simp
  rw [show b.blocks.length + 1
      = (b.blocks ++ [(⟨[], Terminator.unterminated⟩ : BB)]).length from hlen.symm]
  exact get?_append_len _ _

/-- The freshly created group-content block is empty and unterminated. -/
theorem loopPre_get?_content (b : Builder) (h : b.insertPt < b.blocks.length) :
    (loopPre b).blocks.get? b.blocks.length
      = some ⟨[], Terminator.unterminated⟩ := by
  show (updateAt _ b.insertPt ((b.blocks ++ [⟨[], Terminator.unterminated⟩])
      ++ [⟨[], Terminator.unterminated⟩])).get? b.blocks.length = _
  rw [updateAt_get?_ne _ _ _ _ (by omega),
    get?_append_lt _ _ b.blocks.length (by simp)]
  exact get?_append_len _ _

/-- Wrapping any body emission in the group wiring still evolves the
original builder. -/
theorem evolves_loop_wiring (b s5 : Builder)
    (E : BuilderEvolves (loopPre b) s5) :
    BuilderEvolves b ((s5.setTerm (loopBr b)).setInsert (b.blocks.length + 1)) := by
  obtain ⟨l, u, e, p, v⟩ := E
  have hl : b.blocks.length + 2 ≤ s5.blocks.length := by
    rw [← loopPre_len b]; exact l
  have hfinlen : ((s5.setTerm (loopBr b)).setInsert (b.blocks.length + 1)).blocks.length
      = s5.blocks.length := by
    simp [Builder.setTerm, Builder.setInsert, updateAt_length]
  have hip : s5.insertPt = b.blocks.length ∨ b.blocks.length + 2 ≤ s5.insertPt := by
    rcases p with hp | hp
    · exact Or.inl (by rw [hp, loopPre_insertPt])
    · exact Or.inr (by rw [loopPre_len] at hp; exact hp)
  refine ⟨?_, ?_, ?_, ?_, ?_⟩
  · rw [hfinlen]; omega
  · intro j hj hne
    show (updateAt _ s5.insertPt s5.blocks).get? j = _
    rw [updateAt_get?_ne _ _ _ _ (by omega)]
    rw [u j (by rw [loopPre_len]; omega) (by rw [loopPre_insertPt]; omega)]
    exact loopPre_get?_lt b j hj hne
  · intro bb hbb
    have hlt : b.insertPt < b.blocks.length := get?_some_lt _ _ _ hbb
    refine ⟨[], loopBr b, ?_⟩
    show (updateAt _ s5.insertPt s5.blocks).get? b.insertPt = _
    rw [updateAt_get?_ne _ _ _ _ (by omega)]
    rw [u b.insertPt (by rw [loopPre_len]; omega) (by rw [loopPre_insertPt]; omega)]
    simpa using loopPre_get?_entry b bb hbb
  · exact Or.inr (by show b.blocks.length ≤ b.blocks.length + 1; omega)
  · intro _
    show b.blocks.length + 1 < _
    rw [hfinlen]; omega

/-- Emitting any child list evolves the builder. -/
theorem codegenList_evolves : ∀ (cs : List Node) (b : Builder),
    BuilderEvolves b (codegenList cs b) := by
  intro cs b
  match cs with
  | [] => rw [codegenList]; exact evolves_refl b
  | Node.increment :: tl =>
    rw [codegenList]
    exact evolves_trans (evolves_emit b Op.cellAdd) (codegenList_evolves tl _)
  | Node.decrement :: tl =>
    rw [codegenList]
    exact evolves_trans (evolves_emit b Op.cellSub) (codegenList_evolves tl _)
  | Node.moveLeft :: tl =>
    rw [codegenList]
    exact evolves_trans (evolves_emit b Op.posSub) (codegenList_evolves tl _)
  | Node.moveRight :: tl =>
    rw [codegenList]
    exact evolves_trans (evolves_emit b Op.posAdd) (codegenList_evolves tl _)
  | Node.putChar :: tl =>
    rw [codegenList]
    exact evolves_trans (evolves_emit b Op.callPutchar) (codegenList_evolves tl _)
  | Node.getChar :: tl =>
    rw [codegenList]
    exact evolves_trans (evolves_emit b Op.callGetchar) (codegenList_evolves tl _)
  | Node.condGroup children :: tl =>
    rw [codegenList]
    exact evolves_trans
      (evolves_loop_wiring b _ (codegenList_evolves children (loopPre b)))
      (codegenList_evolves tl _)
termination_by cs => sizeOf cs
decreasing_by all_goals (simp_wf <;> omega)

/- ## Claim theorems -/

/-- C6: reparsing the debug-printed form of a parsed `Program` (each
leaf re-emitting its original character, each `Loop` body printed
between `[` and `]`) yields a tree structurally identical to the
original, for every input (in particular every input made of the eight
recognized characters plus arbitrary ignored filler). -/
theorem print_parse_roundtrip (cs : List Char) :
    parseProgram (debugPrintList (parseProgram cs)) = parseProgram cs := by
  show (parseSeq (debugPrintList (parseSeq cs).1)).1 = (parseSeq cs).1
  have h := parseSeq_print_list (parseSeq cs).1 []
  rw [List.append_nil] at h
  rw [h, parseSeq_nil]
  simp

/-- C7: inserting arbitrary characters outside the command set
`+-<>.,[]` at arbitrary positions leaves the parsed tree unchanged. -/
theorem comment_transparency (s t : List Char) (h : FillerInsertion s t) :
    parseProgram s = parseProgram t := by
  have hf := fillerInsertion_filter s t h
  show (parseSeq s).1 = (parseSeq t).1
  rw [← (parseSeq_filter s).1, ← (parseSeq_filter t).1, hf]

/-- Witness for C7 at a concrete insertion: `a+b` parses like `+`. -/
theorem comment_transparency_witness :
    FillerInsertion ['+'] ['a', '+', 'b']
      ∧ parseProgram ['+'] = parseProgram ['a', '+', 'b'] := by
  have hins : FillerInsertion ['+'] ['a', '+', 'b'] :=
    FillerInsertion.insert 'a' _ _ (by decide)
      (FillerInsertion.keep '+' _ _
        (FillerInsertion.insert 'b' _ _ (by decide) FillerInsertion.nil))
  exact ⟨hins, comment_transparency _ _ hins⟩

theorem updateAt_of_eq_id (f : α → α) (i : Nat) (l : List α) (hf : ∀ a, f a = a) :
    updateAt f i l = l := by
  induction l generalizing i with
  | nil => cases i <;> rfl
  | cons a as ih =>
    cases i with
    | zero => simp [updateAt, hf]
    | succ i => simp [updateAt, ih]

theorem updateAt_updateAt (f g : α → α) (i : Nat) (l : List α) :
    updateAt g i (updateAt f i l) = updateAt (fun a => g (f a)) i l := by
  induction l generalizing i with
  | nil => cases i <;> rfl
  | cons a as ih =>
    cases i with
    | zero => rfl
    | succ i => simp [updateAt, ih]

theorem appendOps_nil (b : Builder) : appendOps b [] = b := by
  show Builder.mk (updateAt _ b.insertPt b.blocks) b.insertPt = b
  rw [updateAt_of_eq_id _ _ _ (fun bb => by simp)]

theorem updateAt_congr (f g : α → α) (i : Nat) (l : List α) (hfg : ∀ a, f a = g a) :
    updateAt f i l = updateAt g i l := by
  induction l generalizing i with
  | nil => cases i <;> rfl
  | cons a as ih =>
    cases i with
    | zero => simp [updateAt, hfg]
    | succ i => simp [updateAt, ih]

theorem appendOps_emit (b : Builder) (op : Op) (ops : List Op) :
    appendOps (b.emit op) ops = appendOps b (op :: ops) := by
  show Builder.mk (updateAt _ b.insertPt (updateAt _ b.insertPt b.blocks)) b.insertPt = _
  rw [updateAt_updateAt]
  show Builder.mk (updateAt _ b.insertPt b.blocks) b.insertPt = _
  congr 1
  exact updateAt_congr _ _ _ _ (fun bb => by simp)

/-- Emitting `n` `Increment` nodes appends `n` `cellAdd` instructions to
the insertion block. -/
theorem codegenList_replicate_inc (n : Nat) (b : Builder) :
    codegenList (List.replicate n Node.increment) b
      = appendOps b (List.replicate n Op.cellAdd) := by
  induction n generalizing b with
  | zero => simp [codegenList, appendOps_nil]
  | succ n ih =>
    rw [List.replicate_succ, codegenList, ih, appendOps_emit, ← List.replicate_succ]

/-- The lowering of `MoveLeft` is exactly one emitted position decrement. -/
theorem codegen_moveLeft (b : Builder) :
    Node.codegen Node.moveLeft b = b.emit Op.posSub := by
  simp [Node.codegen, codegenList]

/-- The lowering of `MoveRight` is exactly one emitted position increment. -/
theorem codegen_moveRight (b : Builder) :
    Node.codegen Node.moveRight b = b.emit Op.posAdd := by
  simp [Node.codegen, codegenList]

/-- One-equation form of `ConditionalGroupNode::codegen`: entry wiring, body
emission by the same rule, trailing test, insertion point at merge. -/
theorem codegen_condGroup (children : List Node) (b : Builder) :
    Node.codegen (Node.condGroup children) b
      = ((codegenList children (loopPre b)).setTerm (loopBr b)).setInsert
          (b.blocks.length + 1) := by
  simp [Node.codegen, codegenList]

/-- C1: every `Loop` node lowers to the three-region shape above, and
(the `[]` scenario) the translation of an empty loop over the initial
all-zero tape performs zero iterations and terminates with no
output. -/
theorem loop_lowering_three_regions (children : List Node) (s : Builder)
    (h : s.insertPt < s.blocks.length) :
    condGroupShape children s
    ∧ parseProgram ['[', ']'] = [Node.condGroup []]
    ∧ (runProgram [Node.condGroup []] [] 20).map Exec.out = some [] := by
  obtain ⟨l, u, e, p, v⟩ := codegenList_evolves children (loopPre s)
  have hip : (codegenList children (loopPre s)).insertPt = s.blocks.length
      ∨ s.blocks.length + 2 ≤ (codegenList children (loopPre s)).insertPt := by
    rcases p with hp | hp
    · exact Or.inl (by rw [hp, loopPre_insertPt])
    · exact Or.inr (by rw [loopPre_len] at hp; exact hp)
  refine ⟨⟨codegen_condGroup children s, ?_, loopPre_get?_content s h, ?_, ?_, hip, by omega⟩,
    rfl, ?_⟩
  · intro bb hbb
    rw [codegen_condGroup]
    show (updateAt _ (codegenList children (loopPre s)).insertPt _).get? s.insertPt = _
    rw [updateAt_get?_ne _ _ _ _ (by omega),
      u s.insertPt (by rw [loopPre_len]; omega) (by rw [loopPre_insertPt]; omega)]
    exact loopPre_get?_entry s bb hbb
  · rw [codegen_condGroup]
    show (updateAt _ (codegenList children (loopPre s)).insertPt _).get?
        (s.blocks.length + 1) = _
    rw [updateAt_get?_ne _ _ _ _ (by omega),
      u (s.blocks.length + 1) (by rw [loopPre_len]; omega) (by rw [loopPre_insertPt]; omega)]
    exact loopPre_get?_merge s h
  · rw [codegen_condGroup]; rfl
  · have hcg : programCodegen [Node.condGroup []]
        = ⟨"main", 0, true,
           [⟨[Op.allocaPosition, Op.storePosInit, Op.allocaTape TAPE_SIZE, Op.storeTapeZero],
             Terminator.condBrNZ 1 2⟩,
            ⟨[], Terminator.condBrNZ 1 2⟩,
            ⟨[], Terminator.retVoid⟩]⟩ := by
      simp [programCodegen, codegenList, setupBuilder, Builder.emit, Builder.setTerm,
        Builder.newBlock, Builder.setInsert, loopPre, loopBr, updateAt]
    show (runFrom (programCodegen [Node.condGroup []]) 20 0 0 (initExec [])).map Exec.out
        = some []
    rw [hcg]
    decide

/-- Witness for C1 at the concrete entry builder of `main` and an empty
body. -/
theorem loop_lowering_three_regions_witness :
    setupBuilder.insertPt < setupBuilder.blocks.length
    ∧ (condGroupShape [] setupBuilder
       ∧ parseProgram ['[', ']'] = [Node.condGroup []]
       ∧ (runProgram [Node.condGroup []] [] 20).map Exec.out = some []) :=
  ⟨by decide, loop_lowering_three_regions [] setupBuilder (by decide)⟩

/-- C2: `++>+++++[<+>-]<.` parses to the required instruction sequence,
and its translation prints the byte 7 exactly once, then terminates. -/
theorem scenario_seven :
    parseProgram ['+', '+', '>', '+', '+', '+', '+', '+', '[', '<', '+', '>', '-', ']', '<', '.']
      = progSeven
    ∧ (runProgram progSeven [] 200).map Exec.out = some [7] := by
  constructor
  · rfl
  · have hcg : programCodegen progSeven
        = ⟨"main", 0, true,
           [⟨[Op.allocaPosition, Op.storePosInit, Op.allocaTape TAPE_SIZE, Op.storeTapeZero,
              Op.cellAdd, Op.cellAdd, Op.posAdd, Op.cellAdd, Op.cellAdd, Op.cellAdd,
              Op.cellAdd, Op.cellAdd], Terminator.condBrNZ 1 2⟩,
            ⟨[Op.posSub, Op.cellAdd, Op.posAdd, Op.cellSub], Terminator.condBrNZ 1 2⟩,
            ⟨[Op.posSub, Op.callPutchar], Terminator.retVoid⟩]⟩ := by
      simp [progSeven, programCodegen, codegenList, setupBuilder, Builder.emit,
        Builder.setTerm, Builder.newBlock, Builder.setInsert, loopPre, loopBr, updateAt]
    show (runFrom (programCodegen progSeven) 200 0 0 (initExec [])).map Exec.out = some [7]
    rw [hcg]
    decide

/-- C3: malformed bracket nesting is never rejected.  A stray `]`
silently ends the scope being parsed — at top level everything behind
it is dropped — and end of stream inside open `[` scopes closes them
all, still producing `Loop` nodes from the collected children. -/
theorem bracket_tolerance :
    (∀ rest : List Char, parseSeq (']' :: rest) = ([], rest))
    ∧ (∀ rest : List Char, parseProgram (']' :: rest) = [])
    ∧ parseProgram ['+', ']', '+'] = [Node.increment]
    ∧ parseProgram ['[', '[', '+'] = [Node.condGroup [Node.condGroup [Node.increment]]]
    ∧ parseProgram ['[', '+'] = [Node.condGroup [Node.increment]] := by
  refine ⟨parseSeq_close, fun rest => ?_, rfl, rfl, rfl⟩
  show (parseSeq (']' :: rest)).1 = []
  rw [parseSeq_close]

/-- C4: program-level code generation declares `void main()` (no
parameters, no return value), allocates the position as a signed 64-bit
integer initialized to 0 and the tape as `TAPE_SIZE = 16384` one-byte
cells all zero — all before any child is visited, at the head of the
entry block — then emits every top-level instruction in order and
finally a return with no value (terminating the block the children left
current). -/
theorem program_codegen_shape (children : List Node) :
    (programCodegen children).name = "main"
    ∧ (programCodegen children).numParams = 0
    ∧ (programCodegen children).returnsVoid = true
    ∧ TAPE_SIZE = 16384
    ∧ setupBuilder.blocks
        = [⟨[Op.allocaPosition, Op.storePosInit, Op.allocaTape TAPE_SIZE, Op.storeTapeZero],
            Terminator.unterminated⟩]
    ∧ (∀ e : Exec, (execOp Op.storePosInit e).pos = 0)
    ∧ (∀ e : Exec, ∀ i : Int, (execOp Op.storeTapeZero e).tape i = 0)
    ∧ (programCodegen children).blocks
        = ((codegenList children setupBuilder).setTerm Terminator.retVoid).blocks
    ∧ (∃ rest t, (programCodegen children).blocks.get? 0
        = some ⟨[Op.allocaPosition, Op.storePosInit, Op.allocaTape TAPE_SIZE,
            Op.storeTapeZero] ++ rest, t⟩)
    ∧ (∃ bb, (programCodegen children).blocks.get?
          (codegenList children setupBuilder).insertPt = some bb
        ∧ bb.term = Terminator.retVoid) := by
  obtain ⟨l, u, e, p, v⟩ := codegenList_evolves children setupBuilder
  refine ⟨rfl, rfl, rfl, rfl, rfl, fun _ => rfl, fun _ _ => rfl, rfl, ?_, ?_⟩
  · obtain ⟨suf, t, hbf⟩ := e ⟨[Op.allocaPosition, Op.storePosInit,
        Op.allocaTape TAPE_SIZE, Op.storeTapeZero], Terminator.unterminated⟩ rfl
    have hbf0 : (codegenList children setupBuilder).blocks.get? 0
        = some ⟨[Op.allocaPosition, Op.storePosInit, Op.allocaTape TAPE_SIZE,
            Op.storeTapeZero] ++ suf, t⟩ := hbf
    show ∃ rest t, ((codegenList children setupBuilder).setTerm
        Terminator.retVoid).blocks.get? 0 = _
    by_cases hip : (codegenList children setupBuilder).insertPt = 0
    · refine ⟨suf, Terminator.retVoid, ?_⟩
      show (updateAt _ (codegenList children setupBuilder).insertPt _).get? 0 = _
      rw [hip, updateAt_get?_eq, hbf0]
      rfl
    · refine ⟨suf, t, ?_⟩
      show (updateAt _ (codegenList children setupBuilder).insertPt _).get? 0 = _
      rw [updateAt_get?_ne _ _ _ _ (fun hh => hip hh.symm)]
      exact hbf0
  · have hv : (codegenList children setupBuilder).insertPt
        < (codegenList children setupBuilder).blocks.length := v (by decide)
    obtain ⟨bb0, hbb0⟩ := get?_lt_some _ _ hv
    refine ⟨⟨bb0.ops, Terminator.retVoid⟩, ?_, rfl⟩
    show (updateAt _ (codegenList children setupBuilder).insertPt _).get? _ = _
    rw [updateAt_get?_eq, hbb0]
    rfl

set_option maxRecDepth 4000 in
/-- C5: cell arithmetic wraps modulo 256.  The translation of 256
`Increment`s leaves the initially-zero cell at 0 again; one `Decrement`
of a zero cell yields 255; and in general the emitted add/sub act as
byte-width wrapping arithmetic. -/
theorem byte_wraparound :
    (runProgram (List.replicate 256 Node.increment) [] 300).map (fun e => e.tape 0) = some 0
    ∧ (runProgram [Node.decrement] [] 20).map (fun e => e.tape 0) = some 255
    ∧ (∀ e : Exec, (execOp Op.cellAdd e).tape e.pos = (e.tape e.pos + 1) % 256)
    ∧ (∀ e : Exec, (execOp Op.cellSub e).tape e.pos = (e.tape e.pos + 255) % 256) := by
  refine ⟨?_, ?_, fun e => ?_, fun e => ?_⟩
  · have hcg : programCodegen (List.replicate 256 Node.increment)
        = ⟨"main", 0, true,
           [⟨[Op.allocaPosition, Op.storePosInit, Op.allocaTape TAPE_SIZE, Op.storeTapeZero]
              ++ List.replicate 256 Op.cellAdd, Terminator.retVoid⟩]⟩ := by
      unfold programCodegen
      rw [codegenList_replicate_inc]
      rfl
    show (runFrom (programCodegen (List.replicate 256 Node.increment)) 300 0 0
        (initExec [])).map (fun e => e.tape 0) = some 0
    rw [hcg]
    decide
  · have hcg : programCodegen [Node.decrement]
        = ⟨"main", 0, true,
           [⟨[Op.allocaPosition, Op.storePosInit, Op.allocaTape TAPE_SIZE, Op.storeTapeZero,
              Op.cellSub], Terminator.retVoid⟩]⟩ := by
      simp [programCodegen, codegenList, setupBuilder, Builder.emit, Builder.setTerm, updateAt]
    show (runFrom (programCodegen [Node.decrement]) 20 0 0
        (initExec [])).map (fun e => e.tape 0) = some 255
    rw [hcg]
    decide
  · simp [execOp, updTape]
  · simp [execOp, updTape]

/-- C8: pointer movement is a plain 64-bit signed decrement/increment
with no bounds check and no wraparound into the tape: `MoveLeft` at
position 0 yields position -1, `MoveRight` at position
`TAPE_SIZE - 1` yields position `TAPE_SIZE`, and both resulting
positions index outside the allocated tape array. -/
theorem pointer_unchecked (e1 e2 : Exec) (h1 : e1.pos = 0)
    (h2 : e2.pos = (TAPE_SIZE : Int) - 1) :
    (∀ b : Builder, Node.codegen Node.moveLeft b = b.emit Op.posSub)
    ∧ (∀ b : Builder, Node.codegen Node.moveRight b = b.emit Op.posAdd)
    ∧ (execOp Op.posSub e1).pos = -1
    ∧ ¬ inBounds (execOp Op.posSub e1).pos
    ∧ (execOp Op.posAdd e2).pos = (TAPE_SIZE : Int)
    ∧ ¬ inBounds (execOp Op.posAdd e2).pos := by
  have hl : (execOp Op.posSub e1).pos = -1 := by
    show wrap64 (e1.pos - 1) = -1
    rw [h1]
    decide
  have hr : (execOp Op.posAdd e2).pos = (TAPE_SIZE : Int) := by
    show wrap64 (e2.pos + 1) = (TAPE_SIZE : Int)
    rw [h2]
    decide
  refine ⟨codegen_moveLeft, codegen_moveRight, hl, ?_, hr, ?_⟩
  · rw [hl]
    intro hb
    exact absurd hb.1 (by decide)
  · rw [hr]
    intro hb
    exact absurd hb.2 (by decide)

/-- Witness for C8 at concrete machine states with the pointer at 0 and
at `TAPE_SIZE - 1`. -/
theorem pointer_unchecked_witness :
    (initExec []).pos = 0
    ∧ ({ initExec [] with pos := (TAPE_SIZE : Int) - 1 } : Exec).pos = (TAPE_SIZE : Int) - 1
    ∧ ((∀ b : Builder, Node.codegen Node.moveLeft b = b.emit Op.posSub)
       ∧ (∀ b : Builder, Node.codegen Node.moveRight b = b.emit Op.posAdd)
       ∧ (execOp Op.posSub (initExec [])).pos = -1
       ∧ ¬ inBounds (execOp Op.posSub (initExec [])).pos
       ∧ (execOp Op.posAdd { initExec [] with pos := (TAPE_SIZE : Int) - 1 }).pos
           = (TAPE_SIZE : Int)
       ∧ ¬ inBounds (execOp Op.posAdd { initExec [] with pos := (TAPE_SIZE : Int) - 1 }).pos) :=
  ⟨rfl, rfl, pointer_unchecked (initExec []) { initExec [] with pos := (TAPE_SIZE : Int) - 1 }
    rfl rfl⟩

/-- C9: the translation of `,.` calls the input primitive exactly once,
stores the narrowed byte into the cell at the (unmoved) pointer, calls
the output primitive exactly once with exactly that byte, and touches
no other cell. -/
theorem io_pass_through (v i : Int) (hi : i ≠ 0) :
    parseProgram [',', '.'] = [Node.getChar, Node.putChar]
    ∧ (programCodegen [Node.getChar, Node.putChar]).blocks
        = [⟨[Op.allocaPosition, Op.storePosInit, Op.allocaTape TAPE_SIZE, Op.storeTapeZero,
             Op.callGetchar, Op.callPutchar], Terminator.retVoid⟩]
    ∧ (runProgram [Node.getChar, Node.putChar] [v] 20).map
        (fun e => (e.out, e.pos, e.inp, e.tape 0, e.tape i))
      = some ([(v % 256).toNat], 0, [], (v % 256).toNat, 0) := by
  have hcg : programCodegen [Node.getChar, Node.putChar]
      = ⟨"main", 0, true,
         [⟨[Op.allocaPosition, Op.storePosInit, Op.allocaTape TAPE_SIZE, Op.storeTapeZero,
            Op.callGetchar, Op.callPutchar], Terminator.retVoid⟩]⟩ := by
    simp [programCodegen, codegenList, setupBuilder, Builder.emit, Builder.setTerm, updateAt]
  refine ⟨rfl, by rw [hcg], ?_⟩
  show (runFrom (programCodegen [Node.getChar, Node.putChar]) 20 0 0
      (initExec [v])).map (fun e => (e.out, e.pos, e.inp, e.tape 0, e.tape i))
    = some ([(v % 256).toNat], 0, [], (v % 256).toNat, 0)
  rw [hcg]
  have hrun : runFrom
      ⟨"main", 0, true,
       [⟨[Op.allocaPosition, Op.storePosInit, Op.allocaTape TAPE_SIZE, Op.storeTapeZero,
          Op.callGetchar, Op.callPutchar], Terminator.retVoid⟩]⟩ 20 0 0 (initExec [v])
      = some ⟨updTape (fun _ => 0) 0 ((v % 256).toNat), 0, [], [(v % 256).toNat]⟩ := rfl
  rw [hrun]
  simp [updTape, hi]

/-- Witness for C9 at input byte 65 and off-pointer cell 3. -/
theorem io_pass_through_witness :
    (3 : Int) ≠ 0
    ∧ (parseProgram [',', '.'] = [Node.getChar, Node.putChar]
       ∧ (programCodegen [Node.getChar, Node.putChar]).blocks
           = [⟨[Op.allocaPosition, Op.storePosInit, Op.allocaTape TAPE_SIZE, Op.storeTapeZero,
                Op.callGetchar, Op.callPutchar], Terminator.retVoid⟩]
       ∧ (runProgram [Node.getChar, Node.putChar] [65] 20).map
           (fun e => (e.out, e.pos, e.inp, e.tape 0, e.tape 3))
         = some ([((65 : Int) % 256).toNat], 0, [], ((65 : Int) % 256).toNat, 0)) :=
  ⟨by decide, io_pass_through 65 3 (by decide)⟩

/-- C10: the `Input` instruction stores the input primitive's result
reduced modulo 256 (the low byte of the i32) into the current cell; in
particular end of input, signalled by -1, stores 255. -/
theorem input_truncation (v : Int) :
    (runProgram [Node.getChar] [v] 20).map (fun e => e.tape 0) = some ((v % 256).toNat)
    ∧ (runProgram [Node.getChar] [] 20).map (fun e => e.tape 0) = some 255
    ∧ (((-1 : Int) % 256).toNat = 255) := by
  have hcg : programCodegen [Node.getChar]
      = ⟨"main", 0, true,
         [⟨[Op.allocaPosition, Op.storePosInit, Op.allocaTape TAPE_SIZE, Op.storeTapeZero,
            Op.callGetchar], Terminator.retVoid⟩]⟩ := by
    simp [programCodegen, codegenList, setupBuilder, Builder.emit, Builder.setTerm, updateAt]
  refine ⟨?_, ?_, by decide⟩
  · show (runFrom (programCodegen [Node.getChar]) 20 0 0
        (initExec [v])).map (fun e => e.tape 0) = some ((v % 256).toNat)
    rw [hcg]
    rfl
  · show (runFrom (programCodegen [Node.getChar]) 20 0 0
        (initExec [])).map (fun e => e.tape 0) = some 255
    rw [hcg]
    decide
